import Mathlib

/-!
Verification development for the phyluce alignment-analysis scripts.

The definitions below are a shallow embedding of
`bin/align/get_smilogram_from_alignments.py` and
`bin/align/add_missing_data_designators.py`: sequences are `List Char`,
alignments are lists of rows, the sqlite tables are lists of row
structures, and the Python `random.choice` tie-break is an explicit
`pick` function parameter.
-/

namespace Phyluce

/-! ## get_smilogram_from_alignments.py -/

/-- Characters removed by `re.sub('N|n|\?', "", col)` in `worker`. -/
def isStripped (c : Char) : Bool := decide (c = 'N' ∨ c = 'n' ∨ c = '?')

/-- The considered bases of a column: `bases = re.sub('N|n|\?', "", col)`. -/
def considered (col : List Char) : List Char := col.filter (fun c => !isStripped c)

/-- The lowercase IUPAC codes admitted in the random tie-break
(`['a','c','t','g','r','y','s','w','k','m','b','d','h','v']`). -/
def iupacLower : List Char := ['a','c','t','g','r','y','s','w','k','m','b','d','h','v']

/-- The distinct bases of a column (the keys of `Counter(bases)`). -/
def distinctBases (l : List Char) : List Char := l.dedup

/-- The maximal per-base count, `max(count_of_count)` (= the largest value
of `Counter(bases)`). -/
def maxCount (l : List Char) : Nat :=
  ((distinctBases l).map (fun b => l.count b)).foldr max 0

/-- The bases achieving the maximal count.  `count_of_count[max(count_of_count)]`
is the length of this list. -/
def tiedBases (l : List Char) : List Char :=
  (distinctBases l).filter (fun b => decide (l.count b = maxCount l))

/-- The `common_bases` list built in the tie branch of `worker`: lowercased
tied bases that belong to the IUPAC set. -/
def commonBases (l : List Char) : List Char :=
  ((tiedBases l).map Char.toLower).filter (fun b => decide (b ∈ iupacLower))

/-- The major-allele computation of `worker` for one column.  Returns `none`
when the considered bases are empty (the code leaves `major` unassigned in
that case).  `pick` stands for `random.choice`. -/
def majorOf (pick : List Char → Char) (col : List Char) : Option Char :=
  let bases := considered col
  if bases.isEmpty then none
  else if (distinctBases bases).length = 1 then some (bases.headD ' ').toLower
  else if (tiedBases bases).length = 1 then some ((tiedBases bases).headD ' ')
  else some (pick (commonBases bases))

/-- The five event kinds recorded by `worker` (`None` in the Python dict is
`missing`). -/
inductive Kind where
  | missing
  | majallele
  | insertion
  | deletion
  | substitution
deriving DecidableEq, Repr

/-- The if/elif classification chain at the bottom of the column loop of
`worker`.  The chain has no final `else`, so the (unreachable) fall-through
case records nothing, modelled as `none`. -/
def classify_base (major : Char) (base0 : Char) : Option Kind :=
  let base := base0.toLower
  if base = 'N' ∨ base = 'n' ∨ base = '?' then some Kind.missing
  else if base = major then some Kind.majallele
  else if major = '-' ∧ base ≠ '-' then some Kind.insertion
  else if base = '-' ∧ major ≠ '-' then some Kind.deletion
  else if base ≠ '-' ∧ major ≠ '-' then some Kind.substitution
  else none

/-- Classification of one column given the current value of the `major`
variable.  When `major` is still unassigned (`none`), only the
missing-symbol branch can run without raising `NameError`; any other base
would crash, modelled as `none`. -/
def classify_col (majOpt : Option Char) (col : List Char) : List (Option Kind) :=
  col.map (fun c =>
    match majOpt with
    | some m => classify_base m c
    | none =>
        if c.toLower = 'N' ∨ c.toLower = 'n' ∨ c.toLower = '?' then some Kind.missing
        else none)

/-- The column loop of `worker`: iterates over the columns carrying the
`major` variable (which keeps its previous value when the considered bases
of a column are empty). -/
def worker_cols (pick : List Char → Char) :
    List (List Char) → Option Char → List (List (Option Kind))
  | [], _ => []
  | col :: rest, majOpt =>
      let m := match majorOf pick col with
        | some x => some x
        | none => majOpt
      classify_col m col :: worker_cols pick rest m

/-- Column `idx` of an alignment, `aln[:, idx]`. -/
def column (aln : List (List Char)) (idx : Nat) : List Char :=
  aln.map (fun s => s.getD idx '?')

/-- `aln.get_alignment_length()`. -/
def alignment_length (aln : List (List Char)) : Nat :=
  aln.foldr (fun s m => max s.length m) 0

/-- All columns of an alignment, in order. -/
def columnsOf (aln : List (List Char)) : List (List Char) :=
  (List.range (alignment_length aln)).map (column aln)

/-- `replace_gaps_at_start_and_ends`: the length of the leading run of
gap characters. -/
def leadGaps (seq : List Char) : Nat := (seq.takeWhile (fun c => decide (c = '-'))).length

/-- Embedding of `replace_gaps_at_start_and_ends`.  On the empty sequence
the two `for` loops never run, `start`/`stop` stay unbound and the final
line raises `NameError`, modelled as `none`.  When the loops exhaust the
sequence without hitting `break` (a fully-gap sequence), `start` and `stop`
keep the last `enumerate` value `len(seq) - 1`, exactly as in the source. -/
def replace_gaps_at_start_and_ends (seq : List Char) : Option (List Char) :=
  if seq.isEmpty then none
  else
    let L := seq.length
    let lead := leadGaps seq
    let start := if lead = L then L - 1 else lead
    let trail := leadGaps seq.reverse
    let stop := if trail = L then L - 1 else L - trail
    some (List.replicate lead '?' ++ ((seq.drop start).take (stop - start)) ++
      List.replicate trail '?')

/-- `replace_gaps` applied to a whole alignment. -/
def replace_gaps (aln : List (List Char)) : Option (List (List Char)) :=
  aln.mapM replace_gaps_at_start_and_ends

/-- The classification phase of `worker`: end-gap normalization followed by
the column loop. -/
def worker_classifications (pick : List Char → Char) (aln : List (List Char)) :
    Option (List (List (Option Kind))) :=
  (replace_gaps aln).map (fun aln2 => worker_cols pick (columnsOf aln2) none)

/-- `base_count[idx] = len(bases)` computed by `worker` on the normalized
alignment. -/
def worker_base_count (aln : List (List Char)) : Option (List Nat) :=
  (replace_gaps aln).map (fun aln2 =>
    (List.range (alignment_length aln2)).map
      (fun idx => (considered (column aln2 idx)).length))

/-- The per-taxon position list `results[name_map[t]][k]` accumulated by
`worker`: column indices, in increasing order, whose classification for
taxon `t` is `k`. -/
def taxon_positions (cls : List (List (Option Kind))) (t : Nat) (k : Kind) : List Nat :=
  (List.range cls.length).filter (fun idx => decide ((cls.getD idx []).getD t none = some k))

/-- The count inserted in the `by_locus` table for kind `k` at position
`pos`: `main` concatenates the per-taxon position lists and takes
`Counter(...)[pos]`. -/
def by_locus_cnt (cls : List (List (Option Kind))) (numTaxa : Nat) (k : Kind) (pos : Nat) :
    Nat :=
  (((List.range numTaxa).map (fun t => taxon_positions cls t k)).flatten).count pos

/-- The event kinds that appear as `by_locus` count columns. -/
def kindsList : List Kind :=
  [Kind.majallele, Kind.substitution, Kind.deletion, Kind.insertion, Kind.missing]

/-- `center = length / 2` in `main` (Python 2 integer division). -/
def center (length : Nat) : Nat := length / 2

/-- `pos - center`, the `position_from_center` value stored by `main`. -/
def position_from_center (length : Nat) (pos : Nat) : Int :=
  (pos : Int) - (center length : Int)

/-- Python truthiness of a string (non-empty strings are truthy). -/
def py_str_truthy (s : String) : Bool := decide (s.length ≠ 0)

/-- The overwrite test `if answer == "Y" or "YES":` in
`create_differences_database`.  Python evaluates it as
`(answer == "Y") or "YES"`, and the branch is taken when that value is
truthy. -/
def overwrite_condition (answer : String) : Bool :=
  (answer == "Y") || py_str_truthy "YES"

/-- Modelled from the spec: the column alphabet of §3 — nucleotide codes,
IUPAC ambiguity codes, the gap `'-'` and the missing symbols
`'N'`/`'n'`/`'?'` (used only as a hypothesis of the tie-break safety
claim). -/
def specAlphabet : List Char :=
  ['A','C','G','T','R','Y','S','W','K','M','B','D','H','V',
   'a','c','g','t','r','y','s','w','k','m','b','d','h','v',
   '-','N','n','?']

/-- A row of the `by_locus` table (all count columns are sqlite `real`). -/
structure ByLocusRow where
  locus : String
  majallele : ℚ
  substitutions : ℚ
  deletions : ℚ
  insertions : ℚ
  missing : ℚ
  bases : ℚ
  position : Int
  position_from_center : Int
  type : String
deriving DecidableEq, Repr

/-- A row of the `by_locus_missing` table. -/
structure ByLocusMissingRow where
  locus : String
  present : ℚ
  absent : ℚ
  position : Int
  position_from_center : Int
  type : String
deriving DecidableEq, Repr

/-- The distinct `position_from_center` values of the `by_locus` table, the
groups of `GROUP BY position_from_center`. -/
def sub_distances (rows : List ByLocusRow) : List Int :=
  (rows.map (fun r => r.position_from_center)).dedup

/-- `sum(substitutions)` over one `GROUP BY position_from_center` group. -/
def sumSubstitutions (rows : List ByLocusRow) (d : Int) : ℚ :=
  ((rows.filter (fun r => decide (r.position_from_center = d))).map
    (fun r => r.substitutions)).sum

/-- `sum(bases)` over one `GROUP BY position_from_center` group. -/
def sumBases (rows : List ByLocusRow) (d : Int) : ℚ :=
  ((rows.filter (fun r => decide (r.position_from_center = d))).map
    (fun r => r.bases)).sum

/-- One row of the temporary table `ssb` built by `main`. -/
def ssb_row (rows : List ByLocusRow) (d : Int) : ℚ × ℚ × ℚ × Int :=
  (sumSubstitutions rows d, sumBases rows d,
   sumSubstitutions rows d / sumBases rows d, d)

/-- The emitted substitution smilogram series:
`SELECT * FROM ssb WHERE ss != 0`. -/
def substitution_series (rows : List ByLocusRow) : List (ℚ × ℚ × ℚ × Int) :=
  ((sub_distances rows).map (ssb_row rows)).filter (fun r => decide (r.1 ≠ 0))

/-- The distinct `position_from_center` values of `by_locus_missing`. -/
def miss_distances (rows : List ByLocusMissingRow) : List Int :=
  (rows.map (fun r => r.position_from_center)).dedup

/-- `sum(present)` over one group. -/
def sumPresent (rows : List ByLocusMissingRow) (d : Int) : ℚ :=
  ((rows.filter (fun r => decide (r.position_from_center = d))).map
    (fun r => r.present)).sum

/-- `sum(absent)` over one group. -/
def sumAbsent (rows : List ByLocusMissingRow) (d : Int) : ℚ :=
  ((rows.filter (fun r => decide (r.position_from_center = d))).map
    (fun r => r.absent)).sum

/-- One row of the temporary table `ssc` built by `main`. -/
def ssc_row (rows : List ByLocusMissingRow) (d : Int) : ℚ × ℚ × ℚ × Int :=
  (sumPresent rows d, sumAbsent rows d,
   sumAbsent rows d / (sumAbsent rows d + sumPresent rows d), d)

/-- The emitted missing-data smilogram series:
`SELECT * FROM ssc WHERE pres != 0`. -/
def missing_series (rows : List ByLocusMissingRow) : List (ℚ × ℚ × ℚ × Int) :=
  ((miss_distances rows).map (ssc_row rows)).filter (fun r => decide (r.1 ≠ 0))

/-- A fixed stand-in for `random.choice` used in concrete evaluations. -/
def defaultPick (l : List Char) : Char := l.headD ' '

/-- The spec's end-to-end example alignment: `ACGT`, `ACGA`, `AC-T`. -/
def exAln : List (List Char) := [['A','C','G','T'], ['A','C','G','A'], ['A','C','-','T']]

/-! ## add_missing_data_designators.py -/

/-- A sequence record: identifier plus sequence text. -/
structure SeqRec where
  name : String
  seq : String
deriving DecidableEq, Repr

/-- `seq.name.lstrip('_R_')`: removes every leading character belonging to
the set `{'_', 'R'}`. -/
def lstripUR (s : String) : String :=
  String.mk (s.toList.dropWhile (fun c => c = '_' || c = 'R'))

/-- Python's `str.split('_')`, at character level: splits at every
underscore, keeping empty pieces (`''.split('_') == ['']`). -/
def splitUnderscore : List Char → List (List Char)
  | [] => [[]]
  | c :: rest =>
      let r := splitUnderscore rest
      if c = '_' then [] :: r
      else (c :: r.headD []) :: r.tail

/-- Python's `'_'.join`. -/
def joinUnderscore : List (List Char) → List Char
  | [] => []
  | [x] => x
  | x :: y :: rest => x ++ '_' :: joinUnderscore (y :: rest)

/-- The renaming applied by `add_gaps_to_align` to an already-stripped
name: `'_'.join(name.split('_')[1:])`, or `name.lower()` when
`--verbatim` (ASCII lowercasing is per-character). -/
def renameSeq (verbatim : Bool) (stripped : String) : String :=
  if verbatim then String.mk (stripped.toList.map Char.toLower)
  else String.mk (joinUnderscore ((splitUnderscore stripped.toList).drop 1))

/-- The renamed identifier of an input record. -/
def renamedName (verbatim : Bool) (r : SeqRec) : String :=
  renameSeq verbatim (lstripUR r.name)

/-- `list.remove(x)`: removes the first occurrence, `ValueError` (modelled
as `none`) when absent. -/
def removeFirst : List String → String → Option (List String)
  | [], _ => none
  | x :: xs, a => if x = a then some xs else (removeFirst xs a).map (fun l => x :: l)

/-- The first loop of `add_gaps_to_align`: renames and re-appends every
input record while removing its new name from `local_organisms`, and
remembers the (stripped) name of the last record seen, which the second
loop reads from the leaked loop variable `seq`. -/
def add_loop1 (verbatim : Bool) :
    List SeqRec → List String → Option String →
    Option (List SeqRec × List String × Option String)
  | [], orgs, last => some ([], orgs, last)
  | r :: rs, orgs, _ =>
    let stripped := lstripUR r.name
    let nn := renameSeq verbatim stripped
    match removeFirst orgs nn with
    | none => none
    | some orgs2 =>
      match add_loop1 verbatim rs orgs2 (some stripped) with
      | none => none
      | some (recs, orgs3, last3) => some (⟨nn, r.seq⟩ :: recs, orgs3, last3)

/-- `loc` as computed in the second loop of `add_gaps_to_align` from the
stripped name of the last input record. -/
def locOf (verbatim : Bool) (lastStripped : String) : String :=
  if verbatim then lastStripped
  else String.mk ((splitUnderscore lastStripped.toList).headD [])

/-- Lookup in the `missing` defaultdict: absent keys give `[]`. -/
def missingLookup (m : List (String × List String)) (k : String) : List String :=
  match m.find? (fun p => p.1 == k) with
  | some p => p.2
  | none => []

/-- The second loop of `add_gaps_to_align`: pads every remaining organism
with a `'?' * overall_length` record.  Reading `seq.name` with no input
record raises `NameError` (`none`); a `missing` check that fails both
asserts raises `AssertionError` (`none`).  A `missing` value that is
`None` or an empty dict is falsy, skipping the check. -/
def add_loop2 (verbatim : Bool) (missing : Option (List (String × List String)))
    (last : Option String) (overall : Nat) : List String → Option (List SeqRec)
  | [] => some []
  | org :: rest =>
    match last with
    | none => none
    | some ls =>
      let loc := locOf verbatim ls
      let ok : Bool := match missing with
        | none => true
        | some m =>
            if m.isEmpty then true
            else (missingLookup m org).contains loc ||
              (missingLookup m (org ++ "*")).contains loc
      if ok then
        match add_loop2 verbatim missing last overall rest with
        | none => none
        | some recs => some (⟨org, String.mk (List.replicate overall '?')⟩ :: recs)
      else none

/-- Embedding of `add_gaps_to_align`.  The outer `Option` is raised
exceptions; the inner `Option` is the Python return value (`None` when the
alignment has too few taxa). -/
def add_gaps_to_align (aln : List SeqRec) (organisms : List String)
    (missing : Option (List (String × List String))) (verbatim : Bool)
    (min_taxa : Nat) : Option (Option (List SeqRec)) :=
  if aln.length < min_taxa then some none
  else
    match aln with
    | [] => none
    | a0 :: _ =>
      let overall := a0.seq.length
      match add_loop1 verbatim aln organisms none with
      | none => none
      | some (recs, rem, last) =>
        match add_loop2 verbatim missing last overall rem with
        | none => none
        | some extra => some (some (recs ++ extra))

/-- Embedding of `add_designators`.  The result pair is (returned value,
alignment written to the output file). -/
def add_designators (file : String) (aln : List SeqRec) (organisms : List String)
    (missing : Option (List (String × List String))) (verbatim : Bool)
    (min_taxa : Nat) : Option (Option String × Option (List SeqRec)) :=
  match add_gaps_to_align aln organisms missing verbatim min_taxa with
  | none => none
  | some none => some (some file, none)
  | some (some a) => some (none, some a)

/-! ## Helper lemmas -/

lemma char_eq_of_toNat_eq {c d : Char} (h : c.toNat = d.toNat) : c = d :=
  Char.ext (UInt32.ext h)

lemma toLower_cases (c : Char) :
    c.toLower = c ∨ (65 ≤ c.toNat ∧ c.toNat ≤ 90 ∧ c.toLower.toNat = c.toNat + 32) := by
  unfold Char.toLower
  by_cases h : c.toNat ≥ 65 ∧ c.toNat ≤ 90
  · refine Or.inr ⟨h.1, h.2, ?_⟩
    simp only [if_pos h]
    have hv : (c.toNat + 32).isValidChar := Or.inl (by omega)
    simp [Char.ofNat, hv]
    rfl
  · exact Or.inl (if_neg h)

lemma toLower_not_missing {c : Char} (h : ¬(c = 'N' ∨ c = 'n' ∨ c = '?')) :
    ¬(c.toLower = 'N' ∨ c.toLower = 'n' ∨ c.toLower = '?') := by
  rcases toLower_cases c with heq | ⟨h1, h2, h3⟩
  · rw [heq]; exact h
  · rintro (he | he | he) <;> rw [he] at h3
    · have hN : ('N' : Char).toNat = 78 := rfl
      omega
    · have hn : ('n' : Char).toNat = 110 := rfl
      have hN : ('N' : Char).toNat = 78 := rfl
      have : c = 'N' := char_eq_of_toNat_eq (by omega)
      exact h (Or.inl this)
    · have hq : ('?' : Char).toNat = 63 := rfl
      omega

lemma considered_all_stripped {col : List Char} (h : considered col = []) :
    ∀ c ∈ col, isStripped c = true := by
  intro c hc
  have := (List.filter_eq_nil_iff.mp h) c hc
  simpa using this

/-! ## Claim theorems -/

/-- C6: `main` computes the alignment center as the floor of half the
length and stores `pos - center` for each position; for length 10 the
center is 5, position 0 maps to -5 and position 9 maps to 4. -/
theorem c6_distance_from_center :
    (∀ length pos : Nat,
        center length = Nat.floor ((length : ℚ) / 2) ∧
        position_from_center length pos = (pos : Int) - (center length : Int)) ∧
    center 10 = 5 ∧ position_from_center 10 0 = -5 ∧ position_from_center 10 9 = 4 := by
  refine ⟨fun length pos => ⟨?_, rfl⟩, by decide, by decide, by decide⟩
  have h := Nat.floor_div_nat (length : ℚ) 2
  rw [Nat.floor_natCast] at h
  rw [center]
  rw [← h]
  norm_num

/-- C3: the overwrite test of `create_differences_database` is
`answer == "Y" or "YES"`, which Python evaluates as the disjunction of
`answer == "Y"` with the truthy constant `"YES"`; it is therefore true for
every answer, including the refusals `"n"` and `"no"`, so the existing
database file is deleted no matter what the user types. -/
theorem c3_overwrite_condition_always_true :
    overwrite_condition "n" = true ∧ overwrite_condition "no" = true ∧
    ∀ answer : String, overwrite_condition answer = true := by
  refine ⟨rfl, rfl, fun answer => ?_⟩
  have h : py_str_truthy "YES" = true := rfl
  rw [overwrite_condition, h, Bool.or_true]

/-- C1: evaluation of `worker` on the spec's example alignment `ACGT`,
`ACGA`, `AC-T`.  Column 0 classifies every taxon as major-allele and the
`by_locus` deletion count at position 2 is 1 with 3 considered bases, as
the claim states; but the substitution count at position 3 is 3, not the
claimed 1, because the unique-maximum branch stores the major allele
without lowercasing (`'T'`) while every base is lowercased before the
comparison. -/
theorem c1_example_code_eval :
    (worker_classifications defaultPick exAln).isSome = true ∧
    ((worker_classifications defaultPick exAln).getD []).getD 0 [] =
      [some Kind.majallele, some Kind.majallele, some Kind.majallele] ∧
    worker_base_count exAln = some [3, 3, 3, 3] ∧
    by_locus_cnt ((worker_classifications defaultPick exAln).getD []) 3 Kind.deletion 2 = 1 ∧
    by_locus_cnt ((worker_classifications defaultPick exAln).getD []) 3 Kind.substitution 3
      = 3 := by
  decide

/-- C2 counterexample: on the fully-gap sequence `----` of length 4 the
end-gap normalizer returns a sequence of length 8 (all `'?'`), not one of
length 4, and on the empty sequence it raises `NameError` instead of
succeeding. -/
theorem c2_counterexample :
    replace_gaps_at_start_and_ends (List.replicate 4 '-') = some (List.replicate 8 '?') ∧
    (List.replicate 8 '?').length ≠ (List.replicate 4 '-').length ∧
    replace_gaps_at_start_and_ends ([] : List Char) = none := by
  decide

/-- C7: when the considered bases of a column are empty, `worker` assigns
no major allele, classifies every entry of the column as missing (whatever
the stale value of `major` is), and records a considered-base count of 0
for the position. -/
theorem c7_empty_considered_all_missing :
    ∀ (col : List Char) (majOpt : Option Char) (pick : List Char → Char),
      considered col = [] →
      majorOf pick col = none ∧
      (∀ e ∈ classify_col majOpt col, e = some Kind.missing) ∧
      (considered col).length = 0 := by
  intro col majOpt pick h
  refine ⟨by simp [majorOf, h], ?_, by simp [h]⟩
  intro e he
  simp only [classify_col, List.mem_map] at he
  obtain ⟨c, hc, rfl⟩ := he
  have hs := of_decide_eq_true (considered_all_stripped h c hc)
  rcases hs with rfl | rfl | rfl <;> cases majOpt <;> rfl

lemma classify_base_stripped (m : Char) {c : Char} (h : isStripped c = true) :
    classify_base m c = some Kind.missing := by
  rcases of_decide_eq_true h with rfl | rfl | rfl <;> rfl

lemma classify_col_some (m : Char) (col : List Char) :
    classify_col (some m) col = col.map (classify_base m) := rfl

lemma dedup_of_all_eq {B : Char} :
    ∀ {l : List Char}, l ≠ [] → (∀ b ∈ l, b = B) → l.dedup = [B]
  | [], h, _ => absurd rfl h
  | [a], _, hall => by rw [hall a (List.mem_singleton_self a)]; rfl
  | a :: b :: t, _, hall => by
      have ha : a = B := hall a (by simp)
      have hb : b = B := hall b (by simp)
      have ih : (b :: t).dedup = [B] :=
        dedup_of_all_eq (by simp) (fun x hx => hall x (List.mem_cons_of_mem a hx))
      rw [List.dedup_cons_of_mem (by rw [ha, hb]; exact List.mem_cons_self B t), ih]

lemma headD_of_all_eq {B d : Char} {l : List Char} (h : l ≠ []) (hall : ∀ b ∈ l, b = B) :
    l.headD d = B := by
  cases l with
  | nil => exact absurd rfl h
  | cons a t => exact hall a (by simp)

lemma nodup_two_exists_ne {l : List Char} (hn : l.Nodup) (hl : 2 ≤ l.length) (a : Char) :
    ∃ x ∈ l, x ≠ a := by
  match l, hl with
  | x :: y :: t, _ =>
    have hxy : x ≠ y := by
      have := List.nodup_cons.mp hn
      exact fun h => this.1 (h ▸ List.mem_cons_self y t)
    by_cases hx : x = a
    · exact ⟨y, by simp, fun hy => hxy (by rw [hx, hy])⟩
    · exact ⟨x, by simp, hx⟩

/-- Modelled from the spec: every spec-alphabet character that is neither a
missing symbol nor the gap lowercases into the IUPAC tie-break list. -/
lemma alpha_lower_iupac :
    ∀ b ∈ specAlphabet, isStripped b = false → b ≠ '-' → b.toLower ∈ iupacLower := by
  decide

/-- C8: when the considered bases of a column are all one identical
non-gap base, that base (lowercased) is the major allele, every non-missing
entry of the column classifies as major-allele, and the column reports no
substitutions, insertions or deletions. -/
theorem c8_uniform_column_majallele :
    ∀ (col : List Char) (B : Char) (pick : List Char → Char),
      considered col ≠ [] → (∀ b ∈ considered col, b = B) → B ≠ '-' →
      majorOf pick col = some B.toLower ∧
      (∀ c ∈ col, isStripped c = false → classify_base B.toLower c = some Kind.majallele) ∧
      (classify_col (some B.toLower) col).count (some Kind.substitution) = 0 ∧
      (classify_col (some B.toLower) col).count (some Kind.insertion) = 0 ∧
      (classify_col (some B.toLower) col).count (some Kind.deletion) = 0 := by
  intro col B pick h1 h2 _h3
  have hd : (considered col).dedup = [B] := dedup_of_all_eq h1 h2
  have hBmem : B ∈ considered col := by
    obtain ⟨a, t, hc⟩ := List.exists_cons_of_ne_nil h1
    rw [hc]
    rw [h2 a (by rw [hc]; exact List.mem_cons_self a t)]
    exact List.mem_cons_self B t
  have hBstrip : isStripped B = false := by
    simpa using (List.mem_filter.mp hBmem).2
  have hBmiss : ¬(B = 'N' ∨ B = 'n' ∨ B = '?') := of_decide_eq_false hBstrip
  have hLow := toLower_not_missing hBmiss
  have hclass : ∀ c ∈ col, isStripped c = false →
      classify_base B.toLower c = some Kind.majallele := by
    intro c hc hcs
    have hcB : c = B := h2 c (List.mem_filter.mpr ⟨hc, by simp [hcs]⟩)
    subst hcB
    rw [classify_base]
    simp only []
    rw [if_neg hLow]
    simp
  refine ⟨?_, hclass, ?_, ?_, ?_⟩
  · rw [majorOf]
    have hne : (considered col).isEmpty = false := by
      simpa [List.isEmpty_iff] using h1
    simp only [hne, Bool.false_eq_true, if_false, distinctBases, hd, List.length_singleton,
      if_pos rfl]
    rw [headD_of_all_eq h1 h2]
    simp
  all_goals
    rw [List.count_eq_zero]
    intro hmem
    rw [classify_col_some] at hmem
    obtain ⟨c, hc, heq⟩ := List.mem_map.mp hmem
    by_cases hcs : isStripped c = true
    · rw [classify_base_stripped B.toLower hcs] at heq
      simp at heq
    · rw [hclass c hc (by simpa using hcs)] at heq
      simp at heq

/-- C8 witness: the column `GGN`. -/
theorem c8_witness :
    (considered ['G', 'G', 'N'] ≠ [] ∧ (∀ b ∈ considered ['G', 'G', 'N'], b = 'G') ∧
      'G' ≠ '-') ∧
    majorOf defaultPick ['G', 'G', 'N'] = some 'g' := by
  refine ⟨⟨by decide, by decide, by decide⟩, ?_⟩
  have h := (c8_uniform_column_majallele ['G', 'G', 'N'] 'G' defaultPick
    (by decide) (by decide) (by decide)).1
  simpa using h

/-- C9: over the spec's alphabet, whenever the tie branch of `worker` is
reached (at least two distinct considered bases share the maximal count),
the `common_bases` candidate list is non-empty — so `random.choice` never
fails — and the major allele is the picked candidate. -/
theorem c9_tie_candidates_nonempty :
    ∀ (col : List Char) (pick : List Char → Char),
      (∀ c ∈ col, c ∈ specAlphabet) →
      2 ≤ (tiedBases (considered col)).length →
      commonBases (considered col) ≠ [] ∧
      majorOf pick col = some (pick (commonBases (considered col))) := by
  intro col pick halpha htie
  have hnodup : (tiedBases (considered col)).Nodup :=
    (List.nodup_dedup (considered col)).filter _
  obtain ⟨b, hb, hbne⟩ := nodup_two_exists_ne hnodup htie '-'
  have hbdist : b ∈ distinctBases (considered col) := List.mem_of_mem_filter hb
  have hbbases : b ∈ considered col := List.mem_dedup.mp hbdist
  have hbcol : b ∈ col := List.mem_of_mem_filter hbbases
  have hbstrip : isStripped b = false := by
    simpa using (List.mem_filter.mp hbbases).2
  have hlow : b.toLower ∈ iupacLower := alpha_lower_iupac b (halpha b hbcol) hbstrip hbne
  have hmem : b.toLower ∈ commonBases (considered col) := by
    rw [commonBases]
    exact List.mem_filter.mpr ⟨List.mem_map.mpr ⟨b, hb, rfl⟩, by simpa using hlow⟩
  refine ⟨List.ne_nil_of_mem hmem, ?_⟩
  have hbasesne : considered col ≠ [] := List.ne_nil_of_mem hbbases
  have hisEmpty : (considered col).isEmpty = false := by
    simpa [List.isEmpty_iff] using hbasesne
  have hfle : (tiedBases (considered col)).length ≤ (distinctBases (considered col)).length :=
    List.length_filter_le _ _
  have hd1 : ¬((distinctBases (considered col)).length = 1) := by omega
  have ht1 : ¬((tiedBases (considered col)).length = 1) := by omega
  rw [majorOf]
  simp only [hisEmpty, Bool.false_eq_true, if_false, if_neg hd1, if_neg ht1]

/-- C9 witness: the tied column `AAGG`. -/
theorem c9_witness :
    ((∀ c ∈ (['A', 'A', 'G', 'G'] : List Char), c ∈ specAlphabet) ∧
      2 ≤ (tiedBases (considered ['A', 'A', 'G', 'G'])).length) ∧
    commonBases (considered ['A', 'A', 'G', 'G']) ≠ [] :=
  ⟨⟨by decide, by decide⟩,
    (c9_tie_candidates_nonempty ['A', 'A', 'G', 'G'] defaultPick
      (by decide) (by decide)).1⟩

lemma take_takeWhile_len (p : Char → Bool) :
    ∀ (l : List Char), l.take ((l.takeWhile p).length) = l.takeWhile p
  | [] => rfl
  | a :: t => by
      cases hp : p a
      · simp [List.takeWhile_cons, hp]
      · simp [List.takeWhile_cons, hp, take_takeWhile_len p t]

lemma leadGaps_le (seq : List Char) : leadGaps seq ≤ seq.length :=
  (List.takeWhile_sublist _).length_le

lemma take_leadGaps (seq : List Char) :
    seq.take (leadGaps seq) = List.replicate (leadGaps seq) '-' := by
  rw [leadGaps, take_takeWhile_len, List.eq_replicate_iff]
  refine ⟨rfl, fun b hb => ?_⟩
  have hp := List.mem_takeWhile_imp hb
  exact of_decide_eq_true hp

lemma leadGaps_eq_length {seq : List Char} (h : leadGaps seq = seq.length) :
    ∀ c ∈ seq, c = '-' := by
  intro c hc
  have hself : seq.takeWhile (fun c => decide (c = '-')) = seq :=
    (List.takeWhile_sublist _).eq_of_length h
  rw [← hself] at hc
  have hp := List.mem_takeWhile_imp hc
  exact of_decide_eq_true hp

lemma leadGaps_lt {seq : List Char} (h : ∃ c ∈ seq, c ≠ '-') :
    leadGaps seq < seq.length := by
  obtain ⟨c, hc, hne⟩ := h
  rcases lt_or_eq_of_le (leadGaps_le seq) with hlt | heq
  · exact hlt
  · exact absurd (leadGaps_eq_length heq c hc) hne

lemma drop_trailing_gaps (seq : List Char) :
    seq.drop (seq.length - leadGaps seq.reverse) =
      List.replicate (leadGaps seq.reverse) '-' := by
  have h : (seq.reverse.take (leadGaps seq.reverse)).reverse =
      seq.reverse.reverse.drop (seq.reverse.length - leadGaps seq.reverse) :=
    List.reverse_take
  rw [take_leadGaps seq.reverse, List.reverse_replicate, List.reverse_reverse,
    List.length_reverse] at h
  exact h.symm

lemma dropWhile_drop (p : Char → Bool) :
    ∀ (l : List Char), l.dropWhile p = l.drop ((l.takeWhile p).length)
  | [] => rfl
  | a :: t => by
      cases hp : p a <;>
        simp [List.dropWhile_cons, List.takeWhile_cons, hp, dropWhile_drop p t]

lemma headD_dropWhile (p : Char → Bool) :
    ∀ (l : List Char), l.dropWhile p = [] ∨ p ((l.dropWhile p).headD ' ') = false
  | [] => Or.inl rfl
  | a :: t => by
      cases hp : p a
      · right
        simp [List.dropWhile_cons, hp]
      · simpa [List.dropWhile_cons, hp] using headD_dropWhile p t

lemma lead_trail_le {seq : List Char} (h : ∃ c ∈ seq, c ≠ '-') :
    leadGaps seq + leadGaps seq.reverse ≤ seq.length := by
  by_contra hgt
  push_neg at hgt
  have hlt : leadGaps seq < seq.length := leadGaps_lt h
  have htrle : leadGaps seq.reverse ≤ seq.length := by
    have := leadGaps_le seq.reverse
    simpa using this
  have hdw : seq.dropWhile (fun c => decide (c = '-')) = seq.drop (leadGaps seq) :=
    dropWhile_drop _ seq
  have hne : seq.dropWhile (fun c => decide (c = '-')) ≠ [] := by
    rw [hdw]
    intro hnil
    exact absurd (List.drop_eq_nil_iff.mp hnil) (by omega)
  have hhead := (headD_dropWhile (fun c => decide (c = '-')) seq).resolve_left hne
  have hdrop : seq.drop (leadGaps seq) =
      (seq.drop (seq.length - leadGaps seq.reverse)).drop
        (leadGaps seq - (seq.length - leadGaps seq.reverse)) := by
    rw [List.drop_drop]
    congr 1
    omega
  rw [drop_trailing_gaps seq, List.drop_replicate] at hdrop
  rw [hdw, hdrop] at hhead
  have hk : leadGaps seq.reverse - (leadGaps seq - (seq.length - leadGaps seq.reverse)) =
      seq.length - leadGaps seq := by omega
  rw [hk] at hhead
  have hkpos : 0 < seq.length - leadGaps seq := by omega
  obtain ⟨m, hm⟩ := Nat.exists_eq_succ_of_ne_zero hkpos.ne'
  rw [hm] at hhead
  simp [List.replicate_succ] at hhead

/-- C2 amended: on every sequence containing at least one non-gap
character, the end-gap normalizer succeeds, preserves the length, and
returns the sequence with the leading gap run and the trailing gap run
(both of which consist entirely of gaps) rewritten to `'?'` while the
middle is unchanged.  (On the empty and fully-gap inputs it misbehaves,
see the counterexample.) -/
theorem c2_amended_end_gap_normalizer :
    ∀ (seq : List Char), (∃ c ∈ seq, c ≠ '-') →
      ∃ r, replace_gaps_at_start_and_ends seq = some r ∧
        r.length = seq.length ∧
        seq.take (leadGaps seq) = List.replicate (leadGaps seq) '-' ∧
        seq.drop (seq.length - leadGaps seq.reverse) =
          List.replicate (leadGaps seq.reverse) '-' ∧
        r.take (leadGaps seq) = List.replicate (leadGaps seq) '?' ∧
        r.drop (seq.length - leadGaps seq.reverse) =
          List.replicate (leadGaps seq.reverse) '?' ∧
        (r.drop (leadGaps seq)).take (seq.length - leadGaps seq - leadGaps seq.reverse) =
          (seq.drop (leadGaps seq)).take
            (seq.length - leadGaps seq - leadGaps seq.reverse) := by
  intro seq h
  have hlt : leadGaps seq < seq.length := leadGaps_lt h
  have htrlt : leadGaps seq.reverse < seq.length := by
    have h2 : ∃ c ∈ seq.reverse, c ≠ '-' := by
      obtain ⟨c, hc, hne⟩ := h
      exact ⟨c, List.mem_reverse.mpr hc, hne⟩
    have := leadGaps_lt h2
    simpa using this
  have hsum : leadGaps seq + leadGaps seq.reverse ≤ seq.length := lead_trail_le h
  have hne : seq ≠ [] := by
    obtain ⟨c, hc, _⟩ := h
    exact List.ne_nil_of_mem hc
  have hrepl : replace_gaps_at_start_and_ends seq =
      some (List.replicate (leadGaps seq) '?' ++
        ((seq.drop (leadGaps seq)).take (seq.length - leadGaps seq.reverse - leadGaps seq)) ++
        List.replicate (leadGaps seq.reverse) '?') := by
    simp only [replace_gaps_at_start_and_ends]
    rw [if_neg (by simpa [List.isEmpty_iff] using hne), if_neg hlt.ne, if_neg htrlt.ne]
  have hmidlen :
      ((seq.drop (leadGaps seq)).take
        (seq.length - leadGaps seq.reverse - leadGaps seq)).length =
      seq.length - leadGaps seq.reverse - leadGaps seq := by
    rw [List.length_take, List.length_drop]
    omega
  refine ⟨_, hrepl, ?_, take_leadGaps seq, drop_trailing_gaps seq, ?_, ?_, ?_⟩
  · simp only [List.length_append, List.length_replicate, hmidlen]
    omega
  · rw [List.append_assoc]
    exact List.take_left' (by simp)
  · exact List.drop_left' (by simp [hmidlen]; omega)
  · rw [List.append_assoc, List.drop_left' (by simp)]
    rw [List.take_left' (by rw [hmidlen]; omega)]
    congr 1
    omega

/-- C2 amended witness: the sequence `-A`. -/
theorem c2_amended_witness :
    (∃ c ∈ (['-', 'A'] : List Char), c ≠ '-') ∧
    (∃ r, replace_gaps_at_start_and_ends ['-', 'A'] = some r ∧
      r.length = (['-', 'A'] : List Char).length ∧
      (['-', 'A'] : List Char).take (leadGaps ['-', 'A']) =
        List.replicate (leadGaps ['-', 'A']) '-' ∧
      (['-', 'A'] : List Char).drop
          ((['-', 'A'] : List Char).length - leadGaps (['-', 'A'] : List Char).reverse) =
        List.replicate (leadGaps (['-', 'A'] : List Char).reverse) '-' ∧
      r.take (leadGaps ['-', 'A']) = List.replicate (leadGaps ['-', 'A']) '?' ∧
      r.drop ((['-', 'A'] : List Char).length - leadGaps (['-', 'A'] : List Char).reverse) =
        List.replicate (leadGaps (['-', 'A'] : List Char).reverse) '?' ∧
      (r.drop (leadGaps ['-', 'A'])).take
          ((['-', 'A'] : List Char).length - leadGaps ['-', 'A'] -
            leadGaps (['-', 'A'] : List Char).reverse) =
        ((['-', 'A'] : List Char).drop (leadGaps ['-', 'A'])).take
          ((['-', 'A'] : List Char).length - leadGaps ['-', 'A'] -
            leadGaps (['-', 'A'] : List Char).reverse)) :=
  ⟨by decide, c2_amended_end_gap_normalizer ['-', 'A'] (by decide)⟩

lemma classify_col_missing_of_empty (majOpt : Option Char) {col : List Char}
    (h : considered col = []) :
    ∀ e ∈ classify_col majOpt col, e = some Kind.missing := by
  intro e he
  simp only [classify_col, List.mem_map] at he
  obtain ⟨c, hc, rfl⟩ := he
  have hs := of_decide_eq_true (considered_all_stripped h c hc)
  rcases hs with rfl | rfl | rfl <;> cases majOpt <;> rfl

lemma classify_base_isSome (m b : Char) : (classify_base m b).isSome = true := by
  rw [classify_base]
  by_cases h1 : b.toLower = 'N' ∨ b.toLower = 'n' ∨ b.toLower = '?'
  · rw [if_pos h1]; rfl
  · rw [if_neg h1]
    by_cases h2 : b.toLower = m
    · rw [if_pos h2]; rfl
    · rw [if_neg h2]
      by_cases h3 : m = '-' ∧ b.toLower ≠ '-'
      · rw [if_pos h3]; rfl
      · rw [if_neg h3]
        by_cases h4 : b.toLower = '-' ∧ m ≠ '-'
        · rw [if_pos h4]; rfl
        · rw [if_neg h4]
          have hbl : b.toLower ≠ '-' := by
            intro hbl
            have hm : m = '-' := by
              by_contra hm
              exact h4 ⟨hbl, hm⟩
            exact h2 (hbl.trans hm.symm)
          have hm : m ≠ '-' := fun hm => h3 ⟨hm, hbl⟩
          rw [if_pos ⟨hbl, hm⟩]
          rfl

lemma classify_col_isSome {majOpt : Option Char} {col : List Char}
    (h : majOpt = none → considered col = []) :
    ∀ e ∈ classify_col majOpt col, e.isSome = true := by
  cases majOpt with
  | some m =>
      intro e he
      rw [classify_col_some] at he
      obtain ⟨c, _, rfl⟩ := List.mem_map.mp he
      exact classify_base_isSome m c
  | none =>
      intro e he
      rw [classify_col_missing_of_empty none (h rfl) e he]
      rfl

lemma majorOf_isSome (pick : List Char → Char) (col : List Char)
    (h : considered col ≠ []) : (majorOf pick col).isSome = true := by
  rw [majorOf]
  rw [if_neg (by simpa [List.isEmpty_iff] using h)]
  by_cases hA : (distinctBases (considered col)).length = 1
  · rw [if_pos hA]; rfl
  · rw [if_neg hA]
    by_cases hB : (tiedBases (considered col)).length = 1
    · rw [if_pos hB]; rfl
    · rw [if_neg hB]; rfl

lemma worker_entry_isSome (pick : List Char → Char) (cols : List (List Char)) :
    ∀ (majPrev : Option Char) (l : List (Option Kind)),
      l ∈ worker_cols pick cols majPrev → ∀ e ∈ l, e.isSome = true := by
  induction cols with
  | nil =>
      intro majPrev l hl
      simp [worker_cols] at hl
  | cons col rest ih =>
      intro majPrev l hl e he
      simp only [worker_cols] at hl
      rcases List.mem_cons.mp hl with rfl | htail
      · refine classify_col_isSome ?_ e he
        intro hM
        cases hmaj : majorOf pick col with
        | some x => rw [hmaj] at hM; simp at hM
        | none =>
            by_contra hcc
            have hs := majorOf_isSome pick col hcc
            rw [hmaj] at hs
            simp at hs
      · exact ih _ l htail e he

lemma worker_cols_length (pick : List Char → Char) :
    ∀ (cols : List (List Char)) (majPrev : Option Char),
      (worker_cols pick cols majPrev).length = cols.length
  | [], _ => rfl
  | col :: rest, majPrev => by
      simp only [worker_cols, List.length_cons]
      rw [worker_cols_length pick rest]

lemma worker_cols_getD (pick : List Char → Char) (cols : List (List Char)) :
    ∀ (majPrev : Option Char) (pos : Nat), pos < cols.length →
      ∃ m', (worker_cols pick cols majPrev).getD pos [] = classify_col m' (cols.getD pos []) ∧
        (m' = none → considered (cols.getD pos []) = []) := by
  induction cols with
  | nil =>
      intro majPrev pos hpos
      simp at hpos
  | cons col rest ih =>
      intro majPrev pos hpos
      simp only [worker_cols]
      cases pos with
      | zero =>
          refine ⟨match majorOf pick col with | some x => some x | none => majPrev,
            rfl, ?_⟩
          intro hM
          cases hmaj : majorOf pick col with
          | some x => rw [hmaj] at hM; simp at hM
          | none =>
              by_contra hcc
              have hs := majorOf_isSome pick col hcc
              rw [hmaj] at hs
              simp at hs
      | succ n =>
          have hlt : n < rest.length := by simpa using hpos
          simpa using ih _ n hlt

lemma count_filter_bool {α : Type} [DecidableEq α] (p : α → Bool) (l : List α) (a : α) :
    (l.filter p).count a = if p a then l.count a else 0 := by
  by_cases hpa : p a = true
  · rw [List.count_filter hpa, if_pos hpa]
  · rw [if_neg hpa, List.count_eq_zero]
    intro hmem
    exact hpa (List.of_mem_filter hmem)

lemma count_range_eq (L pos : Nat) : (List.range L).count pos = if pos < L then 1 else 0 := by
  by_cases h : pos < L
  · rw [if_pos h]
    exact List.count_eq_one_of_mem (List.nodup_range L) (List.mem_range.mpr h)
  · rw [if_neg h, List.count_eq_zero]
    exact fun hmem => h (List.mem_range.mp hmem)

lemma taxon_positions_count (cls : List (List (Option Kind))) (t : Nat) (k : Kind)
    (pos : Nat) :
    (taxon_positions cls t k).count pos =
      if pos < cls.length ∧ (cls.getD pos []).getD t none = some k then 1 else 0 := by
  rw [taxon_positions, count_filter_bool, count_range_eq]
  by_cases h1 : (cls.getD pos []).getD t none = some k
  · rw [if_pos (decide_eq_true h1)]
    by_cases h2 : pos < cls.length
    · rw [if_pos h2, if_pos ⟨h2, h1⟩]
    · rw [if_neg h2, if_neg (fun hc => h2 hc.1)]
  · rw [if_neg (by simpa using h1), if_neg (fun hc => h1 hc.2)]

lemma range_map_sum (f : Nat → Nat) : ∀ (n : Nat),
    ((List.range n).map f).sum = ∑ t ∈ Finset.range n, f t := by
  intro n
  induction n with
  | zero => simp
  | succ m ih =>
      rw [List.range_succ, List.map_append, List.sum_append, Finset.sum_range_succ, ih]
      simp

lemma by_locus_cnt_eq (cls : List (List (Option Kind))) (N : Nat) (k : Kind) (pos : Nat) :
    by_locus_cnt cls N k pos = ∑ t ∈ Finset.range N,
      (if pos < cls.length ∧ (cls.getD pos []).getD t none = some k then 1 else 0) := by
  rw [by_locus_cnt, List.count_flatten, List.map_map]
  have hcomp : (List.count pos ∘ fun t => taxon_positions cls t k) =
      fun t => (taxon_positions cls t k).count pos := rfl
  rw [hcomp]
  have hpt : (fun t => (taxon_positions cls t k).count pos) = fun t =>
      if pos < cls.length ∧ (cls.getD pos []).getD t none = some k then 1 else 0 := by
    funext t
    exact taxon_positions_count cls t k pos
  rw [hpt, range_map_sum]

lemma mapM_option_length {α β : Type} (f : α → Option β) :
    ∀ (l : List α) (l2 : List β), l.mapM f = some l2 → l2.length = l.length
  | [], l2, h => by
      simp only [List.mapM_nil] at h
      cases h
      rfl
  | a :: t, l2, h => by
      rw [List.mapM_cons] at h
      cases hfa : f a with
      | none => rw [hfa] at h; simp at h
      | some b =>
          rw [hfa] at h
          cases hft : t.mapM f with
          | none => rw [hft] at h; simp at h
          | some bs =>
              rw [hft] at h
              simp only [Option.bind_some, Option.pure_def, Option.bind_eq_bind,
                Option.some_bind, Option.some.injEq] at h
              rw [← h]
              simp [mapM_option_length f t bs hft]

/-- C4: every entry of the classification produced by `worker` is one of
the five kinds (the fall-through case of the classification chain is
unreachable), and at every position the `by_locus` counts of the five
kinds summed over all taxa equal the number of taxa. -/
theorem c4_every_base_classified_once :
    ∀ (aln : List (List Char)) (pick : List Char → Char)
      (cls : List (List (Option Kind))),
      worker_classifications pick aln = some cls →
      (∀ l ∈ cls, ∀ e ∈ l, ∃ k, e = some k) ∧
      (∀ pos, pos < cls.length →
        (kindsList.map (fun k => by_locus_cnt cls aln.length k pos)).sum = aln.length) := by
  intro aln pick cls hw
  rw [worker_classifications] at hw
  cases hrg : replace_gaps aln with
  | none => rw [hrg] at hw; simp at hw
  | some aln2 =>
      rw [hrg] at hw
      simp only [Option.map_some', Option.some.injEq] at hw
      subst hw
      have hsome : ∀ l ∈ worker_cols pick (columnsOf aln2) none, ∀ e ∈ l, e.isSome = true :=
        worker_entry_isSome pick (columnsOf aln2) none
      constructor
      · intro l hl e he
        have := hsome l hl e he
        cases e with
        | none => simp at this
        | some k => exact ⟨k, rfl⟩
      · intro pos hpos
        have hlen2 : aln2.length = aln.length := mapM_option_length _ aln aln2 hrg
        have hwlen : (worker_cols pick (columnsOf aln2) none).length =
            (columnsOf aln2).length := worker_cols_length pick (columnsOf aln2) none
        have hposcols : pos < (columnsOf aln2).length := by omega
        obtain ⟨m', hgetD, _⟩ := worker_cols_getD pick (columnsOf aln2) none pos hposcols
        have hcolpos : (columnsOf aln2).getD pos [] = column aln2 pos := by
          rw [columnsOf, List.getD_eq_getElem _ _ (by simpa [columnsOf] using hposcols),
            List.getElem_map, List.getElem_range]
        have hclen : ((worker_cols pick (columnsOf aln2) none).getD pos []).length
            = aln.length := by
          rw [hgetD, hcolpos, classify_col, List.length_map, column, List.length_map, hlen2]
        have hcolmem : (worker_cols pick (columnsOf aln2) none).getD pos [] ∈
            worker_cols pick (columnsOf aln2) none := by
          rw [List.getD_eq_getElem _ _ hpos]
          exact List.getElem_mem hpos
        have hentry : ∀ t, t < aln.length →
            ∃ k0, ((worker_cols pick (columnsOf aln2) none).getD pos []).getD t none
              = some k0 := by
          intro t ht
          have htlen : t < ((worker_cols pick (columnsOf aln2) none).getD pos []).length := by
            omega
          rw [List.getD_eq_getElem _ _ htlen]
          have hmem := List.getElem_mem htlen
          have := hsome _ hcolmem _ hmem
          cases hv : ((worker_cols pick (columnsOf aln2) none).getD pos [])[t] with
          | none => rw [hv] at this; simp at this
          | some k0 => exact ⟨k0, rfl⟩
        rw [kindsList]
        simp only [List.map_cons, List.map_nil, List.sum_cons, List.sum_nil, Nat.add_zero]
        rw [by_locus_cnt_eq, by_locus_cnt_eq, by_locus_cnt_eq, by_locus_cnt_eq,
          by_locus_cnt_eq]
        rw [← Finset.sum_add_distrib, ← Finset.sum_add_distrib, ← Finset.sum_add_distrib,
          ← Finset.sum_add_distrib]
        have hone : ∀ t ∈ Finset.range aln.length,
            ((if pos < (worker_cols pick (columnsOf aln2) none).length ∧
                ((worker_cols pick (columnsOf aln2) none).getD pos []).getD t none
                  = some Kind.majallele then 1 else 0) +
             ((if pos < (worker_cols pick (columnsOf aln2) none).length ∧
                ((worker_cols pick (columnsOf aln2) none).getD pos []).getD t none
                  = some Kind.substitution then 1 else 0) +
              ((if pos < (worker_cols pick (columnsOf aln2) none).length ∧
                ((worker_cols pick (columnsOf aln2) none).getD pos []).getD t none
                  = some Kind.deletion then 1 else 0) +
               ((if pos < (worker_cols pick (columnsOf aln2) none).length ∧
                ((worker_cols pick (columnsOf aln2) none).getD pos []).getD t none
                  = some Kind.insertion then 1 else 0) +
                (if pos < (worker_cols pick (columnsOf aln2) none).length ∧
                ((worker_cols pick (columnsOf aln2) none).getD pos []).getD t none
                  = some Kind.missing then 1 else 0))))) = 1 := by
          intro t ht
          obtain ⟨k0, hk0⟩ := hentry t (Finset.mem_range.mp ht)
          rw [hk0]
          cases k0 <;> simp [hpos]
        rw [Finset.sum_congr rfl hone]
        simp

/-- C4 witness: a 2-taxon, 2-column alignment with no gaps. -/
theorem c4_witness :
    worker_classifications defaultPick [['A', 'C'], ['A', 'C']] =
      some [[some Kind.majallele, some Kind.majallele],
        [some Kind.majallele, some Kind.majallele]] ∧
    (kindsList.map (fun k => by_locus_cnt
        [[some Kind.majallele, some Kind.majallele],
          [some Kind.majallele, some Kind.majallele]] 2 k 0)).sum = 2 :=
  ⟨by decide,
    (c4_every_base_classified_once [['A', 'C'], ['A', 'C']] defaultPick
        [[some Kind.majallele, some Kind.majallele],
          [some Kind.majallele, some Kind.majallele]] (by decide)).2 0 (by decide)⟩

/-- C5: the substitution smilogram series contains, for each distance
with at least one `by_locus` row, the tuple (summed substitutions, summed
bases, their quotient, distance), omitting distances whose summed
substitutions are zero; the missing-data series contains
(summed present, summed absent, absent/(absent+present), distance),
omitting distances whose summed present-count is zero; and every emitted
entry has exactly this shape. -/
theorem c5_smilogram_series :
    ∀ (subRows : List ByLocusRow) (missRows : List ByLocusMissingRow) (d : Int),
      (ssb_row subRows d ∈ substitution_series subRows ↔
        (∃ r ∈ subRows, r.position_from_center = d) ∧ sumSubstitutions subRows d ≠ 0) ∧
      (∀ e ∈ substitution_series subRows, e = ssb_row subRows e.2.2.2) ∧
      (ssc_row missRows d ∈ missing_series missRows ↔
        (∃ r ∈ missRows, r.position_from_center = d) ∧ sumPresent missRows d ≠ 0) ∧
      (∀ e ∈ missing_series missRows, e = ssc_row missRows e.2.2.2) := by
  intro subRows missRows d
  refine ⟨⟨?_, ?_⟩, ?_, ⟨?_, ?_⟩, ?_⟩
  · intro hmem
    obtain ⟨hmap, hpred⟩ := List.mem_filter.mp hmem
    obtain ⟨d', hd', heq⟩ := List.mem_map.mp hmap
    have hdd : d' = d := by
      have h4 := congrArg (fun x => x.2.2.2) heq
      simpa [ssb_row] using h4
    subst hdd
    rw [sub_distances] at hd'
    obtain ⟨r, hr, hrd⟩ := List.mem_map.mp (List.mem_dedup.mp hd')
    exact ⟨⟨r, hr, hrd⟩, of_decide_eq_true hpred⟩
  · rintro ⟨⟨r, hr, hrd⟩, hnz⟩
    refine List.mem_filter.mpr ⟨List.mem_map.mpr ⟨d, ?_, rfl⟩, decide_eq_true hnz⟩
    rw [sub_distances]
    exact List.mem_dedup.mpr (List.mem_map.mpr ⟨r, hr, hrd⟩)
  · intro e he
    obtain ⟨hmap, _⟩ := List.mem_filter.mp he
    obtain ⟨d', _, heq⟩ := List.mem_map.mp hmap
    have h4 : e.2.2.2 = d' := by rw [← heq]; rfl
    rw [h4, ← heq]
  · intro hmem
    obtain ⟨hmap, hpred⟩ := List.mem_filter.mp hmem
    obtain ⟨d', hd', heq⟩ := List.mem_map.mp hmap
    have hdd : d' = d := by
      have h4 := congrArg (fun x => x.2.2.2) heq
      simpa [ssc_row] using h4
    subst hdd
    rw [miss_distances] at hd'
    obtain ⟨r, hr, hrd⟩ := List.mem_map.mp (List.mem_dedup.mp hd')
    exact ⟨⟨r, hr, hrd⟩, of_decide_eq_true hpred⟩
  · rintro ⟨⟨r, hr, hrd⟩, hnz⟩
    refine List.mem_filter.mpr ⟨List.mem_map.mpr ⟨d, ?_, rfl⟩, decide_eq_true hnz⟩
    rw [miss_distances]
    exact List.mem_dedup.mpr (List.mem_map.mpr ⟨r, hr, hrd⟩)
  · intro e he
    obtain ⟨hmap, _⟩ := List.mem_filter.mp he
    obtain ⟨d', _, heq⟩ := List.mem_map.mp hmap
    have h4 : e.2.2.2 = d' := by rw [← heq]; rfl
    rw [h4, ← heq]

/-- C5 witness: a one-row table for each series. -/
theorem c5_witness :
    ssb_row [⟨"l", 0, 1, 0, 0, 0, 2, 3, 0, "substitutions"⟩] 0 ∈
      substitution_series [⟨"l", 0, 1, 0, 0, 0, 2, 3, 0, "substitutions"⟩] ∧
    ssc_row [⟨"l", 2, 1, 3, 0, "missing"⟩] 0 ∈
      missing_series [⟨"l", 2, 1, 3, 0, "missing"⟩] := by
  constructor
  · exact ((c5_smilogram_series [⟨"l", 0, 1, 0, 0, 0, 2, 3, 0, "substitutions"⟩] [] 0).1).mpr
      ⟨⟨⟨"l", 0, 1, 0, 0, 0, 2, 3, 0, "substitutions"⟩, by simp, rfl⟩,
        by norm_num [sumSubstitutions]⟩
  · exact ((c5_smilogram_series [] [⟨"l", 2, 1, 3, 0, "missing"⟩] 0).2.2.1).mpr
      ⟨⟨⟨"l", 2, 1, 3, 0, "missing"⟩, by simp, rfl⟩, by norm_num [sumPresent]⟩

lemma removeFirst_eq {orgs : List String} {n : String} (h : n ∈ orgs) :
    removeFirst orgs n = some (orgs.erase n) := by
  induction orgs with
  | nil => simp at h
  | cons x t ih =>
      rw [removeFirst]
      by_cases hx : x = n
      · subst hx
        rw [if_pos rfl, List.erase_cons_head]
      · rw [if_neg hx]
        have hn : n ∈ t := by
          rcases List.mem_cons.mp h with h' | h'
          · exact absurd h'.symm hx
          · exact h'
        rw [ih hn, List.erase_cons_tail]
        · rfl
        · simp [hx]

lemma erase_filter_contains (orgs : List String) (hnodup : orgs.Nodup) (n : String)
    (ns : List String) :
    (orgs.erase n).filter (fun o => !(ns.contains o)) =
      orgs.filter (fun o => !((n :: ns).contains o)) := by
  rw [hnodup.erase_eq_filter n, List.filter_filter]
  apply List.filter_congr
  intro o _
  simp only [List.contains_cons, Bool.not_or]
  rw [Bool.and_comm]
  rfl

lemma add_loop1_spec (verbatim : Bool) :
    ∀ (aln : List SeqRec) (orgs : List String) (last0 : Option String),
      orgs.Nodup → (aln.map (renamedName verbatim)).Nodup →
      (∀ n ∈ aln.map (renamedName verbatim), n ∈ orgs) →
      ∃ lastS, add_loop1 verbatim aln orgs last0 =
        some (aln.map (fun r => ⟨renamedName verbatim r, r.seq⟩),
          orgs.filter (fun o => !((aln.map (renamedName verbatim)).contains o)), lastS) ∧
        (aln = [] → lastS = last0) ∧ (aln ≠ [] → lastS.isSome = true) := by
  intro aln
  induction aln with
  | nil =>
      intro orgs last0 _ _ _
      refine ⟨last0, ?_, fun _ => rfl, fun h => absurd rfl h⟩
      simp [add_loop1]
  | cons r rs ih =>
      intro orgs last0 hnodup hnames hsub
      have hmemn : renamedName verbatim r ∈ orgs := hsub _ (by simp)
      simp only [add_loop1]
      have hre : removeFirst orgs (renameSeq verbatim (lstripUR r.name)) =
          some (orgs.erase (renamedName verbatim r)) := removeFirst_eq hmemn
      rw [hre]
      have herase_nodup : (orgs.erase (renamedName verbatim r)).Nodup :=
        hnodup.erase _
      have hnames' : (rs.map (renamedName verbatim)).Nodup := by
        simp only [List.map_cons, List.nodup_cons] at hnames
        exact hnames.2
      have hnotin : renamedName verbatim r ∉ rs.map (renamedName verbatim) := by
        simp only [List.map_cons, List.nodup_cons] at hnames
        exact hnames.1
      have hsub' : ∀ n ∈ rs.map (renamedName verbatim),
          n ∈ orgs.erase (renamedName verbatim r) := by
        intro n hn
        have hne : n ≠ renamedName verbatim r := fun he => hnotin (he ▸ hn)
        exact (List.mem_erase_of_ne hne).mpr (hsub n (List.mem_cons_of_mem _ hn))
      obtain ⟨lastS, heq, hnil2, hne2⟩ :=
        ih (orgs.erase (renamedName verbatim r)) (some (lstripUR r.name))
          herase_nodup hnames' hsub'
      simp only [heq]
      refine ⟨lastS, ?_, fun h => by simp at h, fun _ => ?_⟩
      · rw [erase_filter_contains orgs hnodup (renamedName verbatim r)
          (rs.map (renamedName verbatim))]
        rfl
      · by_cases hrs : rs = []
        · rw [hnil2 hrs]
          rfl
        · exact hne2 hrs

lemma add_loop2_none_missing (verbatim : Bool) (ls : String) (overall : Nat) :
    ∀ (orgs : List String),
      add_loop2 verbatim none (some ls) overall orgs =
        some (orgs.map (fun o => ⟨o, String.mk (List.replicate overall '?')⟩))
  | [] => rfl
  | org :: rest => by
      simp only [add_loop2]
      rw [add_loop2_none_missing verbatim ls overall rest]
      rfl

/-- C10: `add_gaps_to_align` returns `None` exactly when the alignment has
fewer than `min_taxa` sequences, and otherwise (for distinct renamed taxa
that all appear in the organism list, with no incomplete-matrix dict)
returns the renamed input records followed by one `'?' * len(aln[0])`
record per organism absent from the input; `add_designators` writes that
result and returns `None`, and returns the input file path exactly when
the alignment was dropped. -/
theorem c10_add_missing_data_designators :
    ∀ (aln : List SeqRec) (organisms : List String)
      (missing : Option (List (String × List String))) (verbatim : Bool)
      (min_taxa : Nat) (file : String),
      (add_gaps_to_align aln organisms missing verbatim min_taxa = some none ↔
        aln.length < min_taxa) ∧
      (add_designators file aln organisms missing verbatim min_taxa =
          some (some file, none) ↔ aln.length < min_taxa) ∧
      (aln ≠ [] → missing = none →
        organisms.Nodup → (aln.map (renamedName verbatim)).Nodup →
        (∀ n ∈ aln.map (renamedName verbatim), n ∈ organisms) →
        ¬(aln.length < min_taxa) →
        add_gaps_to_align aln organisms missing verbatim min_taxa =
          some (some (aln.map (fun r => ⟨renamedName verbatim r, r.seq⟩) ++
            (organisms.filter
              (fun o => !((aln.map (renamedName verbatim)).contains o))).map
              (fun o => ⟨o, String.mk
                (List.replicate (aln.headD ⟨"", ""⟩).seq.length '?')⟩))) ∧
        add_designators file aln organisms missing verbatim min_taxa =
          some (none, some (aln.map (fun r => ⟨renamedName verbatim r, r.seq⟩) ++
            (organisms.filter
              (fun o => !((aln.map (renamedName verbatim)).contains o))).map
              (fun o => ⟨o, String.mk
                (List.replicate (aln.headD ⟨"", ""⟩).seq.length '?')⟩)))) := by
  intro aln organisms missing verbatim min_taxa file
  have hA : add_gaps_to_align aln organisms missing verbatim min_taxa = some none ↔
      aln.length < min_taxa := by
    constructor
    · intro h
      by_contra hlt
      rw [add_gaps_to_align.eq_def, if_neg hlt] at h
      cases aln with
      | nil => simp at h
      | cons a0 rest =>
          cases h1 : add_loop1 verbatim (a0 :: rest) organisms none with
          | none => rw [h1] at h; simp at h
          | some trip =>
              obtain ⟨recs, rem, last⟩ := trip
              rw [h1] at h
              cases h2 : add_loop2 verbatim missing last a0.seq.length rem with
              | none => simp only [h2] at h; exact Option.noConfusion h
              | some extra => simp only [h2] at h; exact Option.noConfusion (Option.some.inj h)
    · intro h
      rw [add_gaps_to_align.eq_def, if_pos h]
  refine ⟨hA, ?_, ?_⟩
  · rw [add_designators]
    constructor
    · intro h
      cases hg : add_gaps_to_align aln organisms missing verbatim min_taxa with
      | none => rw [hg] at h; simp at h
      | some o =>
          cases o with
          | none => exact hA.mp hg
          | some a => rw [hg] at h; simp at h
    · intro h
      rw [hA.mpr h]
  · intro hne hmiss hnodup hnames hsub hlen
    subst hmiss
    cases aln with
    | nil => exact absurd rfl hne
    | cons a0 rest =>
        obtain ⟨lastS, heq1, _, hne1⟩ :=
          add_loop1_spec verbatim (a0 :: rest) organisms none hnodup hnames hsub
        have hls : lastS.isSome = true := hne1 (by simp)
        obtain ⟨ls, hlsv⟩ := Option.isSome_iff_exists.mp hls
        subst hlsv
        have hg : add_gaps_to_align (a0 :: rest) organisms none verbatim min_taxa =
            some (some ((a0 :: rest).map (fun r => ⟨renamedName verbatim r, r.seq⟩) ++
              (organisms.filter
                (fun o => !(((a0 :: rest).map (renamedName verbatim)).contains o))).map
                (fun o => ⟨o, String.mk
                  (List.replicate ((a0 :: rest).headD ⟨"", ""⟩).seq.length '?')⟩))) := by
          rw [add_gaps_to_align.eq_def, if_neg hlen]
          simp only [heq1]
          rw [add_loop2_none_missing verbatim ls a0.seq.length]
          rfl
        exact ⟨hg, by rw [add_designators, hg]⟩

/-- C10 witness: one taxon `Tax` with organisms `tax` and `other`,
verbatim naming, `min_taxa` 1. -/
theorem c10_witness :
    ([⟨"Tax", "AC"⟩] : List SeqRec) ≠ [] ∧
    add_gaps_to_align [⟨"Tax", "AC"⟩] ["tax", "other"] none true 1 =
      some (some [⟨"tax", "AC"⟩, ⟨"other", "??"⟩]) := by
  refine ⟨by simp, ?_⟩
  have h := (c10_add_missing_data_designators [⟨"Tax", "AC"⟩] ["tax", "other"]
      none true 1 "f").2.2 (by simp) rfl (by decide) (by decide) (by decide) (by decide)
  exact h.1.trans (by decide)

/-- C7 witness: the all-missing column `N?n`. -/
theorem c7_witness :
    considered ['N', '?', 'n'] = [] ∧
    (majorOf defaultPick ['N', '?', 'n'] = none ∧
      (∀ e ∈ classify_col none ['N', '?', 'n'], e = some Kind.missing) ∧
      (considered ['N', '?', 'n']).length = 0) :=
  ⟨by decide, c7_empty_considered_all_missing ['N', '?', 'n'] none defaultPick (by decide)⟩

end Phyluce
